import Mathlib

/-!
Shallow embedding of the vectorized intraday backtest engine
(`src/backtest.py`, `src/costs.py`, `src/portfolio.py`) of the
Intraday-Mean-Rev-Strategy repository, together with theorems settling the
frozen claims about it.

Modelling conventions
---------------------
* Wide matrices (index = time, columns = symbol) are `List`s of rows in
  timestamp order; a row is a function `Fin n → Option ℚ` when cells can be
  missing (pandas `NaN`), or `Fin n → ℚ` when the source guarantees filled
  values (e.g. after `fillna(0.0)`).
* Real numbers are embedded as `ℚ`.  `np.log` is transcendental, so the
  log-close matrix (`np.log(prices)`) is carried as an explicit field of each
  input bar (`Bar.lcl`), exactly as the code uses it: every downstream
  operation on it is cell-wise or a difference, never re-derives it from
  `Bar.cl`.
* pandas `NaN` semantics: comparisons with `NaN` are false, arithmetic with
  `NaN` yields `NaN`, `sum`/`rank` skip `NaN` (the default `skipna=True`),
  `DataFrame.diff()` yields a `NaN` first row.  These are reproduced by the
  `Option`-valued helpers below.
* pandas/NumPy `clip(x, lo, hi)` is `min (max x lo) hi` (the lower bound is
  applied first), reproduced literally by `clip`.
-/

namespace IMR

/-- NumPy/pandas clip: lower bound applied first, then upper bound. -/
def clip (x lo hi : ℚ) : ℚ := min (max x lo) hi

/-- A matrix row with possibly-missing cells (pandas row of floats with NaN). -/
abbrev ORow (n : ℕ) := Fin n → Option ℚ

/-- A matrix row with all cells present. -/
abbrev QRow (n : ℕ) := Fin n → ℚ

/-- Cell-wise subtraction with NaN propagation (`x - y` in pandas). -/
def oSub : Option ℚ → Option ℚ → Option ℚ
  | some a, some b => some (a - b)
  | _, _ => none

/-- Cell-wise negation with NaN propagation (`-x` in pandas). -/
def oNeg : Option ℚ → Option ℚ
  | some a => some (-a)
  | none => none

/-- `x ≥ c` on a possibly-missing value: false when missing (pandas NaN compare). -/
def ogeB (x : Option ℚ) (c : ℚ) : Bool :=
  match x with
  | some v => c ≤ v
  | none => false

/-- `x ≤ c` on a possibly-missing value: false when missing (pandas NaN compare). -/
def oleB (x : Option ℚ) (c : ℚ) : Bool :=
  match x with
  | some v => v ≤ c
  | none => false

/-- State-passing scan: the generic shape of every sequential (path-dependent)
loop of the engine (`rate_limit_time`, `apply_no_trade_band`,
`sticky_membership`'s update loop, forward-fills, per-day bar counting). -/
def scanSt {σ α β : Type} (f : σ → α → σ × β) : σ → List α → List β
  | _, [] => []
  | s, a :: as =>
    let r := f s a
    r.2 :: scanSt f r.1 as

/-- The state reached after consuming a list (first components of `scanSt`). -/
def foldSt {σ α β : Type} (f : σ → α → σ × β) : σ → List α → σ
  | s, [] => s
  | s, a :: as => foldSt f (f s a).1 as

theorem length_scanSt {σ α β : Type} (f : σ → α → σ × β) (s : σ) (l : List α) :
    (scanSt f s l).length = l.length := by
  induction l generalizing s with
  | nil => rfl
  | cons a as ih => simp [scanSt, ih]

theorem scanSt_append {σ α β : Type} (f : σ → α → σ × β) (s : σ) (l₁ l₂ : List α) :
    scanSt f s (l₁ ++ l₂) = scanSt f s l₁ ++ scanSt f (foldSt f s l₁) l₂ := by
  induction l₁ generalizing s with
  | nil => rfl
  | cons a as ih => simp [scanSt, foldSt, ih]

theorem scanSt_take {σ α β : Type} (f : σ → α → σ × β) (s : σ) (l₁ l₂ : List α) :
    (scanSt f s (l₁ ++ l₂)).take l₁.length = scanSt f s l₁ := by
  rw [scanSt_append]
  rw [List.take_left' (length_scanSt f s l₁)]

/-- `DataFrame.rank(axis=1, method="first", pct=True)` on one row: a missing
cell ranks as missing; a present cell's rank is its 1-based position in the
ascending order of the present cells, ties broken by column order, divided by
the number of present cells. -/
def rankRow {n : ℕ} (r : ORow n) : ORow n := fun s =>
  match r s with
  | none => none
  | some v =>
    let cnt : ℕ := (Finset.univ.filter fun s' : Fin n => (r s').isSome).card
    let below : ℕ := (Finset.univ.filter fun s' : Fin n =>
      (match r s' with
       | some w => decide (w < v) || (decide (w = v) && decide (s' < s))
       | none => false) = true).card
    some (((below : ℚ) + 1) / (cnt : ℚ))

/-- One eligible-bar update of `sticky_membership`: given the previous
membership row and this bar's percentile ranks, recompute membership.
`cur` starts at 0, the long set is assigned `1.0`, then the short set is
assigned `-1.0` (overwriting on overlap), exactly as in the source. -/
def stickyStep {n : ℕ} (q_in q_out : ℚ) (prev : QRow n) (r : ORow n) : QRow n :=
  fun s =>
    let was_long : Bool := prev s = 1
    let was_short : Bool := prev s = -1
    let longB : Bool :=
      (was_long && ogeB (r s) (1 - q_out)) || (!was_long && ogeB (r s) (1 - q_in))
    let shortB : Bool :=
      (was_short && oleB (r s) q_out) || (!was_short && oleB (r s) q_in)
    if shortB then -1 else if longB then 1 else 0

/-- The update loop of `sticky_membership`: rows are ranks paired with that
bar's update flag.  At an update bar the membership row is recomputed and
becomes the carried state; elsewhere the written row stays at its `0.0`
initialisation and the state is unchanged. -/
def stickyScan {n : ℕ} (q_in q_out : ℚ) : List (ORow n × Bool) → List (QRow n) :=
  scanSt
    (fun prev rb =>
      if rb.2 then
        let cur := stickyStep q_in q_out prev rb.1
        (cur, cur)
      else (prev, fun _ => 0))
    (fun _ => 0)

/-- One row of `m.replace(0.0, np.nan).ffill().fillna(0.0)`: per column, every
written `0` becomes missing, missing cells inherit the last non-zero value
above them, and columns with no such value become `0`.  The carried state
holds, per column, the last non-zero value seen so far. -/
def rffStep {n : ℕ} (last : ORow n) (row : QRow n) : ORow n × QRow n :=
  let newlast : ORow n := fun s => if row s ≠ 0 then some (row s) else last s
  (newlast, fun s => (newlast s).getD 0)

def replaceFfill {n : ℕ} : List (QRow n) → List (QRow n) :=
  scanSt rffStep (fun _ => none)

/-- The forward-fill state stores only non-zero values. -/
def rffWf {n : ℕ} (last : ORow n) : Prop := ∀ s v, last s = some v → v ≠ 0

/-- `sticky_membership` (`src/backtest.py`): percentile ranks per row, the
sequential hysteresis update at flagged bars, then the
`replace(0,NaN).ffill().fillna(0)` post-pass.  The `assert q_out >= q_in` of
the source is modelled at the `vector_backtest` wrapper (`vector_backtestE`). -/
def sticky_membership {n : ℕ} (score : List (ORow n)) (q_in q_out : ℚ)
    (update_mask : List Bool) : List (QRow n) :=
  replaceFfill (stickyScan q_in q_out ((score.map rankRow).zip update_mask))

/-- One input bar row of the wide matrices, in timestamp order.  `day`,
`mfo` (minutes from the 09:30 session open) and `mtc` (minutes to the 16:00
close) are the session attributes the source derives from the row's timestamp;
`lcl` is `np.log` of `cl` carried as data (`np.log(prices)` is only ever used
cell-wise downstream, so the transcendental map itself need not be embedded). -/
structure Bar (n : ℕ) where
  day : ℕ
  mfo : ℚ
  mtc : ℚ
  op : ORow n
  cl : ORow n
  lcl : ORow n

/-- The configuration arguments of `vector_backtest` (the embedding takes
`exec_mode`/`signal_mode` already lower-cased, as `.lower()` produces them). -/
structure Cfg where
  gross : ℚ
  max_w : ℚ
  cost_bps : ℚ
  skip_first_min : ℚ
  skip_last_min : ℚ
  exec_mode : String
  step_bps : ℚ
  band_bps : ℚ
  grid_bps : ℚ
  rebalance_every_n_bars : ℕ
  signal_mode : String
  K : ℕ
  q_in : ℚ
  q_out : ℚ

/-- The session mask: `minutes_from_open >= skip_first_min` and
`minutes_to_close >= skip_last_min`. -/
def sessionOK (cfg : Cfg) {n : ℕ} (b : Bar n) : Bool :=
  cfg.skip_first_min ≤ b.mfo && cfg.skip_last_min ≤ b.mtc

/-- `bar_num = by_day.groupby(by_day).cumcount()` followed by
`bar_num % rebalance_every_n_bars == 0`: per-day bar counting (days arrive in
runs because the index is timestamp-sorted) and the rebalance cadence flag. -/
def updFlags (reb : ℕ) {n : ℕ} (bars : List (Bar n)) : List Bool :=
  scanSt
    (fun st b =>
      let c : ℕ := if st.1 = some b.day then st.2 + 1 else 0
      ((some b.day, c), c % reb == 0))
    ((none : Option ℕ), 0) bars

/-- Cell-wise row subtraction with NaN propagation. -/
def oSubRow {n : ℕ} (a b : ORow n) : ORow n := fun s => oSub (a s) (b s)

/-- The all-missing row. -/
def noneRow (n : ℕ) : ORow n := fun _ => none

/-- `DataFrame.diff(K)`: row `i` minus row `i-K`, missing for the first `K`
rows (`K = 0` gives `x - x`, as in pandas). -/
def diffK {n : ℕ} (K : ℕ) (l : List (ORow n)) : List (ORow n) :=
  List.zipWith oSubRow l (List.replicate K (noneRow n) ++ l)

/-- The signal construction of `vector_backtest`: `retk = np.log(prices).diff(K)`;
`score = -retk` in momentum mode, `score = retk` otherwise. -/
def scoreRows {n : ℕ} (signal_mode : String) (K : ℕ) (bars : List (Bar n)) :
    List (ORow n) :=
  let retk := diffK K (bars.map (fun b => b.lcl))
  if signal_mode = "momentum" then retk.map (fun r => fun s => oNeg (r s)) else retk

/-- The full-index membership matrix of the backtest:
`sticky_membership(score, q_in, q_out, update_mask)`. -/
def membFull (cfg : Cfg) {n : ℕ} (bars : List (Bar n)) : List (QRow n) :=
  sticky_membership (scoreRows cfg.signal_mode cfg.K bars) cfg.q_in cfg.q_out
    (updFlags cfg.rebalance_every_n_bars bars)

/-- One row of the session-masked index (`memb = memb.loc[mask]`), carrying the
bar's attributes, its membership row, and its rebalance flag
(`update_mask2 = update_mask.reindex(w_target.index)`). -/
structure MRow (n : ℕ) where
  bar : Bar n
  memb : QRow n
  upd : Bool

/-- The session-masked rows of the backtest: full-index bars zipped with their
membership rows and rebalance flags, restricted to session-mask-true bars. -/
def maskedRows (cfg : Cfg) {n : ℕ} (bars : List (Bar n)) : List (MRow n) :=
  (List.zipWith (fun b (mu : QRow n × Bool) => MRow.mk b mu.1 mu.2) bars
      ((membFull cfg bars).zip (updFlags cfg.rebalance_every_n_bars bars))).filter
    (fun mr => sessionOK cfg mr.bar)

/-- Row sum of absolute values (`abs().sum(axis=1)` on an all-present row). -/
def absSum {n : ℕ} (row : QRow n) : ℚ := ∑ s, |row s|

/-- The target-weight block of `vector_backtest`:
`memb.div(memb.abs().sum(axis=1))*gross`, then `.where(update_mask2, NaN)`,
`.ffill()`, `.fillna(0.0)`, `.clip(-max_w, max_w)`.  A zero-abs-sum row divides
`0.0/0.0` into NaN in every cell (a non-zero cell cannot occur there), which
the embedding renders as an all-missing row before the forward-fill. -/
def wtStep (gross max_w : ℚ) {n : ℕ} (last : ORow n) (mr : MRow n) :
    ORow n × QRow n :=
  let ssum := absSum mr.memb
  let divRow : ORow n :=
    if ssum = 0 then noneRow n else fun s => some (mr.memb s / ssum * gross)
  let whereRow : ORow n := if mr.upd then divRow else noneRow n
  let filled : ORow n := fun s =>
    match whereRow s with
    | some v => some v
    | none => last s
  (filled, fun s => clip ((filled s).getD 0) (-max_w) max_w)

def wTargetScan (gross max_w : ℚ) {n : ℕ} : List (MRow n) → List (QRow n) :=
  scanSt (wtStep gross max_w) (noneRow n)

/-- `rate_limit_time` (`src/backtest.py`): starting from the all-zero previous
row, each bar moves every name toward target by at most `step_bps/1e4`, then
clips the result to `±max_w`; the clipped row is both the output and the next
bar's previous row.  `rlUpd` is the loop body
`prev = (prev + (row - prev).clip(-step, step)).clip(-max_w, max_w)`. -/
def rlUpd (step_bps max_w : ℚ) {n : ℕ} (prev row : QRow n) : QRow n := fun s =>
  clip (prev s + clip (row s - prev s) (-(step_bps / 10000)) (step_bps / 10000))
    (-max_w) max_w

def rate_limit_time {n : ℕ} (w_target : List (QRow n)) (step_bps max_w : ℚ) :
    List (QRow n) :=
  scanSt (fun prev row => (rlUpd step_bps max_w prev row, rlUpd step_bps max_w prev row))
    (fun _ => 0) w_target

/-- `apply_no_trade_band` (`src/backtest.py`): a name moves to the new target
exactly when `|target - prev| >= band_bps/1e4`, else it holds its previous
executed value; initial previous row is all-zero.  `bandUpd` is the loop body
`trade = (row - prev).abs() >= band; prev = prev.where(~trade, row)`. -/
def bandUpd (band_bps : ℚ) {n : ℕ} (prev row : QRow n) : QRow n := fun s =>
  if band_bps / 10000 ≤ |row s - prev s| then row s else prev s

def apply_no_trade_band {n : ℕ} (w_smooth : List (QRow n)) (band_bps : ℚ) :
    List (QRow n) :=
  scanSt (fun prev row => (bandUpd band_bps prev row, bandUpd band_bps prev row))
    (fun _ => 0) w_smooth

/-- NumPy round-half-to-even, used by `DataFrame.round()`. -/
def roundHE (q : ℚ) : ℤ :=
  let f := ⌊q⌋
  if q - f < 1/2 then f
  else if (1 : ℚ)/2 < q - f then f + 1
  else if f % 2 = 0 then f else f + 1

/-- The grid execution mode: `g = max(1e-8, grid_bps/1e4)`;
`(w_target / g).round() * g` (stateless snap). -/
def gridRows {n : ℕ} (grid_bps : ℚ) (wt : List (QRow n)) : List (QRow n) :=
  let g := max ((1 : ℚ)/100000000) (grid_bps / 10000)
  wt.map (fun row => fun s => (roundHE (row s / g) : ℚ) * g)

/-- The execution-mode dispatch of `vector_backtest` (Python's
`band_bps and band_bps > 0` guard is `0 < band_bps`); an unknown mode passes
targets through unchanged, as the source's final `else` does. -/
def wExecPolicy (cfg : Cfg) {n : ℕ} (wt : List (QRow n)) : List (QRow n) :=
  if cfg.exec_mode = "ratelimit" then
    rate_limit_time (if 0 < cfg.band_bps then apply_no_trade_band wt cfg.band_bps else wt)
      cfg.step_bps cfg.max_w
  else if cfg.exec_mode = "band" then apply_no_trade_band wt cfg.band_bps
  else if cfg.exec_mode = "grid" then gridRows cfg.grid_bps wt
  else wt

/-- Executed weights of the backtest: the policy output with the unconditional
end-of-day flatten (`minutes_to_close < 10` rows forced to all-zero) applied
after the policy computation. -/
def wExecRows (cfg : Cfg) {n : ℕ} (bars : List (Bar n)) : List (QRow n) :=
  let masked := maskedRows cfg bars
  let we := wExecPolicy cfg (wTargetScan cfg.gross cfg.max_w masked)
  List.zipWith (fun (mr : MRow n) w => if mr.bar.mtc < 10 then (fun _ => 0) else w)
    masked we

/-- One row of the backtest's output table. -/
structure OutRow where
  raw_ret : ℚ
  tc : ℚ
  net_ret : ℚ
  turnover : ℚ
deriving DecidableEq

/-- `w_exec.diff().abs().sum(axis=1)`: the first row of `diff()` is all-NaN and
the NaN-skipping row sum turns it into `0`; later rows sum `|Δw|`. -/
def turnoverList {n : ℕ} (w : List (QRow n)) : List ℚ :=
  match w with
  | [] => []
  | a :: as => 0 :: List.zipWith (fun p c => ∑ s, |c s - p s|) (a :: as) as

/-- `costs_from_turnover` (`src/costs.py`): `dw = weights.diff().abs().sum(axis=1)`
(the same turnover series as above), then `dw * cost_bps / 1e4`. -/
def costs_from_turnover {n : ℕ} (weights : List (QRow n)) (cost_bps : ℚ) : List ℚ :=
  (turnoverList weights).map (fun t => t * cost_bps / 10000)

/-- The open-to-close bar return row `prices/opens - 1.0`.  pandas produces
`±inf` on a zero open; the embedding renders that cell missing, and every claim
touching returns assumes non-zero opens, where the two agree. -/
def ocRow {n : ℕ} (b : Bar n) : ORow n := fun s =>
  match b.cl s, b.op s with
  | some c, some o => if o = 0 then none else some (c / o - 1)
  | _, _ => none

/-- `w_exec.shift(1).fillna(0.0)`: the executed-weight row lagged one bar, with
an all-zero row before the first bar. -/
def shiftZero {n : ℕ} (l : List (QRow n)) : List (QRow n) :=
  match l with
  | [] => []
  | _ :: _ => (fun _ => 0) :: l.dropLast

/-- `pnl_gross = (w_lag * rets_oc).sum(axis=1)`: the NaN-skipping row sum makes
a missing return cell contribute `0`. -/
def rawRetList (cfg : Cfg) {n : ℕ} (bars : List (Bar n)) : List ℚ :=
  List.zipWith (fun (mr : MRow n) wl => ∑ s, wl s * ((ocRow mr.bar) s).getD 0)
    (maskedRows cfg bars) (shiftZero (wExecRows cfg bars))

/-- `vector_backtest` (`src/backtest.py`): the assembled output table
`{raw_ret, tc, net_ret, turnover}` on the session-masked index.  All four
columns are NaN-skipping sums (hence never NaN), so the source's final
`out.dropna()` keeps every row and is omitted. -/
def vector_backtest (cfg : Cfg) {n : ℕ} (bars : List (Bar n)) : List OutRow :=
  let we := wExecRows cfg bars
  List.zipWith (fun (rt : ℚ × ℚ) tv => OutRow.mk rt.1 rt.2 (rt.1 - rt.2) tv)
    ((rawRetList cfg bars).zip (costs_from_turnover we cfg.cost_bps))
    (turnoverList we)

/-- `vector_backtest` with its single validation: the source's only
configuration check is `assert q_out >= q_in` inside `sticky_membership`
(raised after reshaping and score computation); behaviourally the run fails
exactly when `q_out < q_in` and succeeds otherwise. -/
def vector_backtestE (cfg : Cfg) {n : ℕ} (bars : List (Bar n)) :
    Except String (List OutRow) :=
  if cfg.q_in ≤ cfg.q_out then Except.ok (vector_backtest cfg bars)
  else Except.error "q_out must be >= q_in"

/-- `size_positions` (`src/portfolio.py`): scale each row to gross, clip to
`±max_w` with `fillna(0)`, then rescale once by `gross / gross_now` with
`±inf` and NaN adjustments replaced by `0`. -/
def size_positions {n : ℕ} (raw : List (ORow n)) (gross max_w : ℚ) :
    List (QRow n) :=
  raw.map (fun row =>
    let rowsum : ℚ := ∑ s, |(row s).getD 0|
    let scaled : ORow n := fun s =>
      match row s with
      | some v => if rowsum = 0 then none else some (v / rowsum * gross)
      | none => none
    let capped : QRow n := fun s =>
      match scaled s with
      | some v => clip v (-max_w) max_w
      | none => 0
    let gross_now : ℚ := ∑ s, |capped s|
    let adj : ℚ := if gross_now = 0 then 0 else gross / gross_now
    fun s => capped s * adj)

/-- The all-zero row. -/
def zeroRow (n : ℕ) : QRow n := fun _ => 0

/-- A default masked row (only used as the `getD` fallback in statements that
also bound the index). -/
def mrow0 (n : ℕ) : MRow n :=
  ⟨⟨0, 0, 0, noneRow n, noneRow n, noneRow n⟩, zeroRow n, false⟩

/-- A default output row (only used as the `getD` fallback). -/
def out0 : OutRow := ⟨0, 0, 0, 0⟩

/-!  Concrete instances used by the theorems below: a two-symbol, two-bar
session.  Symbol `0` rises over the bar (log close goes `0 → 1`), symbol `1`
falls (`0 → -1`); both bars lie on the same day with ample distance to the
close, the second bar one minute after the first. -/

/-- First bar: both symbols at (log-)price 0, 30 minutes after the open. -/
def bar0 : Bar 2 :=
  ⟨0, 30, 300, fun _ => some 10, fun _ => some 10, fun _ => some 0⟩

/-- Second bar: symbol 0 has risen (log close 1), symbol 1 has fallen
(log close -1), 31 minutes after the open. -/
def bar1 : Bar 2 :=
  ⟨0, 31, 299, fun _ => some 10,
    fun s => if s = 0 then some 11 else some 9,
    fun s => if s = 0 then some 1 else some (-1)⟩

/-- Momentum-mode configuration: `K = 1`, rebalance every bar,
`q_in = q_out = 1/2`, `gross = 1`, `max_w = 3/5`, zero costs, rate-limit
execution with an effectively unconstraining `step_bps = 100000`. -/
def cfgMom : Cfg :=
  ⟨1, 3/5, 0, 1, 0, "ratelimit", 100000, 0, 0, 1, "momentum", 1, 1/2, 1/2⟩

/-- As `cfgMom` but skipping the first 31 minutes, so the session mask keeps
only the second bar and the backtest's first output row carries a freshly
entered non-zero position. -/
def cfgSkip : Cfg :=
  ⟨1, 3/5, 0, 31, 0, "ratelimit", 100000, 0, 0, 1, "momentum", 1, 1/2, 1/2⟩

/-- A configuration violating two of the validations the spec requires:
non-positive signal horizon (`K = 0`) and a per-name cap exceeding gross
(`max_w = 2 > 1 = gross`), with `q_in ≤ q_out` satisfied. -/
def cfgBadK : Cfg :=
  ⟨1, 2, 0, 31, 0, "ratelimit", 100000, 0, 0, 1, "momentum", 0, 1/2, 1/2⟩

/-- A configuration with `q_out < q_in`, the one condition the source does
validate. -/
def cfgBadQ : Cfg :=
  ⟨1, 3/5, 0, 1, 0, "ratelimit", 100000, 0, 0, 1, "momentum", 1, 1/2, 1/4⟩

/-- Score matrix for the hysteresis-exit scenario: symbol 0 scores highest at
the first bar and mid-pack at the second. -/
def scoreEx : List (ORow 2) :=
  [fun s => if s = 0 then some 2 else some 1,
   fun s => if s = 0 then some 1 else some 2]

/-! ## Generic lemmas about the combinators -/

theorem getD_map {α β : Type} (f : α → β) (l : List α) (i : ℕ) (d : β) (da : α)
    (h : i < l.length) : (l.map f).getD i d = f (l.getD i da) := by
  induction l generalizing i with
  | nil => exact absurd h (by simp)
  | cons a as ih =>
    cases i with
    | zero => rfl
    | succ j => exact ih j (Nat.lt_of_succ_lt_succ h)

theorem getD_zipWith {α β γ : Type} (f : α → β → γ) (a : List α) (b : List β)
    (i : ℕ) (d : γ) (da : α) (db : β) (h1 : i < a.length) (h2 : i < b.length) :
    (List.zipWith f a b).getD i d = f (a.getD i da) (b.getD i db) := by
  induction a generalizing b i with
  | nil => exact absurd h1 (by simp)
  | cons x xs ih =>
    cases b with
    | nil => exact absurd h2 (by simp)
    | cons y ys =>
      cases i with
      | zero => rfl
      | succ j => exact ih ys j (Nat.lt_of_succ_lt_succ h1) (Nat.lt_of_succ_lt_succ h2)

/-- Indexing into a state-duplicating scan: entry `i` is the update function
applied to entry `i - 1` (the initial state for `i = 0`) and input `i`. -/
theorem scanSt_dup_getD {σ α : Type} (f : σ → α → σ) (s0 : σ) (l : List α)
    (d : σ) (da : α) (i : ℕ) (h : i < l.length) :
    (scanSt (fun s a => (f s a, f s a)) s0 l).getD i d =
      f (if i = 0 then s0
         else (scanSt (fun s a => (f s a, f s a)) s0 l).getD (i - 1) d)
        (l.getD i da) := by
  induction l generalizing s0 i with
  | nil => exact absurd h (by simp)
  | cons a as ih =>
    cases i with
    | zero => simp [scanSt]
    | succ j =>
      have hj : j < as.length := Nat.lt_of_succ_lt_succ h
      have hrec := ih (f s0 a) j hj
      simp only [scanSt, List.getD_cons_succ, Nat.succ_sub_one, Nat.succ_ne_zero,
        if_false]
      rw [hrec]
      cases j with
      | zero => simp
      | succ k => simp [List.getD_cons_succ]

theorem clip_le_hi (x lo hi : ℚ) : clip x lo hi ≤ hi := min_le_right _ _

theorem lo_le_clip (x lo hi : ℚ) (h : lo ≤ hi) : lo ≤ clip x lo hi :=
  le_min (le_max_right _ _) h

/-! ## C5: the rate-limit recurrence -/

/-- C5: rate-limit execution policy.  With the initial previous executed row
all-zero, the executed weight at every bar and name equals
`clip(prev + clip(target - prev, -step_bps/1e4, +step_bps/1e4), -max_w, +max_w)`
where `prev` is the previous bar's executed row (`rlUpd` is exactly that
formula, applied pointwise per name). -/
theorem C5_rate_limit_recurrence {n : ℕ} (wt : List (QRow n))
    (step_bps max_w : ℚ) (i : ℕ) (h : i < wt.length) :
    (rate_limit_time wt step_bps max_w).getD i (zeroRow n) =
      rlUpd step_bps max_w
        (if i = 0 then zeroRow n
         else (rate_limit_time wt step_bps max_w).getD (i - 1) (zeroRow n))
        (wt.getD i (zeroRow n)) :=
  scanSt_dup_getD (rlUpd step_bps max_w) (zeroRow n) wt (zeroRow n) (zeroRow n) i h

/-- Witness for C5 at a one-name, one-bar input. -/
theorem C5_rate_limit_recurrence_witness :
    0 < ([fun _ => (3 : ℚ)] : List (QRow 1)).length ∧
    (rate_limit_time ([fun _ => (3 : ℚ)] : List (QRow 1)) 1000 1).getD 0 (zeroRow 1) =
      rlUpd 1000 1
        (if 0 = 0 then zeroRow 1
         else (rate_limit_time ([fun _ => (3 : ℚ)] : List (QRow 1)) 1000 1).getD
            (0 - 1) (zeroRow 1))
        (([fun _ => (3 : ℚ)] : List (QRow 1)).getD 0 (zeroRow 1)) :=
  ⟨by decide, C5_rate_limit_recurrence ([fun _ => (3 : ℚ)] : List (QRow 1)) 1000 1 0 (by decide)⟩

/-! ## C10: the per-name cap invariant of the rate-limit policy -/

/-- C10: for every target matrix and all `step_bps ≥ 0`, `max_w ≥ 0`, every
entry of every row of `rate_limit_time` lies in `[-max_w, +max_w]`. -/
theorem C10_rate_limit_cap {n : ℕ} (wt : List (QRow n)) (step_bps max_w : ℚ)
    (_hs : 0 ≤ step_bps) (hm : 0 ≤ max_w) :
    ∀ row ∈ rate_limit_time wt step_bps max_w, ∀ s,
      -max_w ≤ row s ∧ row s ≤ max_w := by
  have key : ∀ (l : List (QRow n)) (prev : QRow n),
      ∀ row ∈ scanSt
          (fun p r => (rlUpd step_bps max_w p r, rlUpd step_bps max_w p r))
          prev l,
        ∀ s, -max_w ≤ row s ∧ row s ≤ max_w := by
    intro l
    induction l with
    | nil => intro prev row hrow; simp [scanSt] at hrow
    | cons a as ih =>
      intro prev row hrow
      simp only [scanSt, List.mem_cons] at hrow
      rcases hrow with h1 | h2
      · subst h1
        intro s
        simp only [rlUpd]
        exact ⟨lo_le_clip _ _ _ (by linarith), clip_le_hi _ _ _⟩
      · exact ih _ row h2
  exact key wt _

/-- Witness for C10: the sole executed row of a one-name run stays inside
`[-1, 1]`. -/
theorem C10_rate_limit_cap_witness :
    (0 : ℚ) ≤ 1000 ∧ (0 : ℚ) ≤ 1 ∧
    (-(1 : ℚ) ≤ rlUpd 1000 1 (zeroRow 1) (fun _ => 3) 0 ∧
      rlUpd 1000 1 (zeroRow 1) (fun _ => 3) 0 ≤ 1) :=
  ⟨by norm_num, by norm_num,
    C10_rate_limit_cap ([fun _ => (3 : ℚ)] : List (QRow 1)) 1000 1
      (by norm_num) (by norm_num)
      (rlUpd 1000 1 (zeroRow 1) (fun _ => 3)) (List.Mem.head _) 0⟩

/-! ## Evaluation lemmas on the concrete two-bar session -/

set_option maxRecDepth 8000

theorem ev_upd : updFlags 1 [bar0, bar1] = [true, true] := by decide

theorem ev_score_mom :
    scoreRows "momentum" 1 [bar0, bar1] =
      [noneRow 2, fun s => if s = 0 then some (-1) else some 1] := by
  simp only [scoreRows, diffK, bar0, bar1, List.map_cons, List.map_nil, List.replicate,
    List.cons_append, List.nil_append, List.zipWith_cons_cons, List.zipWith_nil_right,
    List.zipWith_nil_left, ite_true, if_true, oSubRow, oSub, oNeg, noneRow,
    List.cons.injEq, and_true]
  refine ⟨funext fun s => rfl, funext fun s => ?_⟩
  fin_cases s <;> norm_num

theorem ev_rank_mom :
    (scoreRows "momentum" 1 [bar0, bar1]).map rankRow =
      [noneRow 2, fun s => if s = 0 then some (1/2) else some 1] := by
  rw [ev_score_mom]
  simp only [List.map_cons, List.map_nil, List.cons.injEq, and_true]
  refine ⟨funext fun s => rfl, funext fun s => ?_⟩
  fin_cases s
  all_goals
    simp only [rankRow]
    norm_num
    rw [Finset.card_filter, Finset.card_filter, Fin.sum_univ_two, Fin.sum_univ_two]
    norm_num

theorem ev_memb_mom :
    membFull cfgMom [bar0, bar1] =
      [zeroRow 2, fun s => if s = 0 then -1 else 1] := by
  simp only [membFull, cfgMom, sticky_membership]
  rw [ev_rank_mom, ev_upd]
  simp only [List.zip_cons_cons, List.zip_nil_right, List.zip_nil_left,
    stickyScan, replaceFfill, scanSt, if_true, ite_true, List.cons.injEq, and_true]
  refine ⟨funext fun s => ?_, funext fun s => ?_⟩
  · fin_cases s <;> norm_num [rffStep, stickyStep, ogeB, oleB, noneRow, zeroRow]
  · fin_cases s <;> norm_num [rffStep, stickyStep, ogeB, oleB, noneRow, zeroRow]

theorem ev_memb_skip :
    membFull cfgSkip [bar0, bar1] =
      [zeroRow 2, fun s => if s = 0 then -1 else 1] := by
  have h : membFull cfgSkip [bar0, bar1] = membFull cfgMom [bar0, bar1] := rfl
  rw [h, ev_memb_mom]

theorem ev_sess0 : sessionOK cfgSkip bar0 = false := by
  norm_num [sessionOK, cfgSkip, bar0]

theorem ev_sess1 : sessionOK cfgSkip bar1 = true := by
  norm_num [sessionOK, cfgSkip, bar1]

theorem ev_masked_skip :
    maskedRows cfgSkip [bar0, bar1] =
      [⟨bar1, fun s => if s = 0 then -1 else 1, true⟩] := by
  simp only [maskedRows]
  have hreb : cfgSkip.rebalance_every_n_bars = 1 := rfl
  rw [ev_memb_skip, hreb, ev_upd]
  simp only [List.zip_cons_cons, List.zip_nil_right, List.zipWith_cons_cons,
    List.zipWith_nil_right, List.filter]
  rw [ev_sess0, ev_sess1]

theorem ev_wt_skip :
    wTargetScan 1 (3/5) (maskedRows cfgSkip [bar0, bar1]) =
      [fun s => if s = 0 then -(1/2) else 1/2] := by
  rw [ev_masked_skip]
  simp only [wTargetScan, scanSt, absSum, List.cons.injEq, and_true]
  funext s
  fin_cases s <;>
    norm_num [wtStep, absSum, Fin.sum_univ_two, noneRow, clip]

theorem ev_wexec_skip :
    wExecRows cfgSkip [bar0, bar1] = [fun s => if s = 0 then -(1/2) else 1/2] := by
  have hg : cfgSkip.gross = 1 := rfl
  have hw : cfgSkip.max_w = 3/5 := rfl
  have hm : cfgSkip.exec_mode = "ratelimit" := rfl
  have hb : cfgSkip.band_bps = 0 := rfl
  have hsb : cfgSkip.step_bps = 100000 := rfl
  simp only [wExecRows, wExecPolicy, hg, hw, hm, hb, hsb]
  rw [ev_wt_skip]
  simp only [if_true, ite_true, if_neg (lt_irrefl (0 : ℚ))]
  rw [ev_masked_skip]
  simp only [rate_limit_time, scanSt, List.zipWith_cons_cons, List.zipWith_nil_right,
    List.zipWith_nil_left, List.cons.injEq, and_true]
  have hmtc : (bar1.mtc < 10) = False := by norm_num [bar1]
  simp only [hmtc, if_false, ite_false]
  funext s
  fin_cases s <;> norm_num [rlUpd, clip, zeroRow]

theorem ev_out_skip :
    vector_backtest cfgSkip [bar0, bar1] = [⟨0, 0, 0, 0⟩] := by
  have hc : cfgSkip.cost_bps = 0 := rfl
  simp only [vector_backtest, rawRetList, costs_from_turnover, hc]
  rw [ev_wexec_skip, ev_masked_skip]
  simp only [turnoverList, shiftZero, List.dropLast, List.zipWith_cons_cons,
    List.zipWith_nil_right, List.zipWith_nil_left, List.zip_cons_cons,
    List.zip_nil_right, List.cons.injEq, and_true, OutRow.mk.injEq]
  norm_num [Fin.sum_univ_two]

theorem ev_rank_ex :
    scoreEx.map rankRow =
      [fun s => if s = 0 then some 1 else some (1/2),
       fun s => if s = 0 then some (1/2) else some 1] := by
  simp only [scoreEx, List.map_cons, List.map_nil, List.cons.injEq, and_true]
  refine ⟨funext fun s => ?_, funext fun s => ?_⟩
  all_goals
    fin_cases s
  all_goals
    simp only [rankRow]
    norm_num
    rw [Finset.card_filter, Finset.card_filter, Fin.sum_univ_two, Fin.sum_univ_two]
    norm_num

/-! ## C1: momentum-mode signal orientation -/

/-- C1 (code bug): at the concrete two-bar session, symbol 0's raw K-bar log
return (`+1`) strictly exceeds symbol 1's (`-1`), yet in `"momentum"` mode the
membership at the eligible second bar puts symbol 0 SHORT (`-1`) and symbol 1
LONG (`+1`): the past winner is a short candidate, not a long one.  The code
computes `score = -retk` while `sticky_membership` enters long at HIGH
percentile rank (its own docstring says low ranks are "more long"), so higher
raw return gives a lower, more short-like rank — the claim's orientation is
inverted by the code. -/
theorem C1_momentum_orientation_bug :
    (diffK 1 ([bar0, bar1].map (fun b => b.lcl))).getD 1 (noneRow 2) 0 = some 1 ∧
    (diffK 1 ([bar0, bar1].map (fun b => b.lcl))).getD 1 (noneRow 2) 1 = some (-1) ∧
    cfgMom.signal_mode = "momentum" ∧
    (membFull cfgMom [bar0, bar1]).getD 1 (zeroRow 2) 0 = -1 ∧
    (membFull cfgMom [bar0, bar1]).getD 1 (zeroRow 2) 1 = 1 := by
  refine ⟨?_, ?_, rfl, ?_, ?_⟩
  · simp only [diffK, bar0, bar1, List.map_cons, List.map_nil, List.replicate,
      List.cons_append, List.nil_append, List.zipWith_cons_cons,
      List.zipWith_nil_right, List.getD_cons_succ, List.getD_cons_zero,
      oSubRow, oSub]
    norm_num
  · simp only [diffK, bar0, bar1, List.map_cons, List.map_nil, List.replicate,
      List.cons_append, List.nil_append, List.zipWith_cons_cons,
      List.zipWith_nil_right, List.getD_cons_succ, List.getD_cons_zero,
      oSubRow, oSub]
    norm_num
  · rw [ev_memb_mom]; norm_num
  · rw [ev_memb_mom]; norm_num

/-! ## C2: membership at eligible bars where no stay/enter condition holds -/

/-- C2 (code bug): at the second (eligible) bar of the `scoreEx` scenario,
symbol 0's percentile rank is `1/2`, so it satisfies neither stay-long
(`1/2 < 1 - q_out = 3/5`) nor enter/stay-short (`1/2 > q_in = 3/10`, and
`1/2 > q_out = 2/5`): the update loop decides membership `0` for it
(first conjunct).  But the returned matrix gives it `+1` (second conjunct):
the `replace(0, NaN).ffill()` post-pass overwrites the legitimate exit-to-flat
with the stale long membership from the first bar, contradicting the claim
that such a symbol has membership exactly 0. -/
theorem C2_membership_exit_bug :
    ((scoreEx.map rankRow).getD 1 (noneRow 2)) 0 = some (1/2) ∧
    (stickyScan (3/10) (2/5) ((scoreEx.map rankRow).zip [true, true])).getD 1
        (zeroRow 2) 0 = 0 ∧
    (sticky_membership scoreEx (3/10) (2/5) [true, true]).getD 1 (zeroRow 2) 0
      = 1 := by
  refine ⟨?_, ?_, ?_⟩
  · rw [ev_rank_ex]; norm_num
  · rw [ev_rank_ex]
    simp only [List.zip_cons_cons, List.zip_nil_right, stickyScan, scanSt,
      if_true, ite_true, List.getD_cons_succ, List.getD_cons_zero]
    norm_num [stickyStep, ogeB, oleB, zeroRow]
  · simp only [sticky_membership]
    rw [ev_rank_ex]
    simp only [List.zip_cons_cons, List.zip_nil_right, stickyScan, replaceFfill,
      scanSt, if_true, ite_true, List.getD_cons_succ, List.getD_cons_zero]
    norm_num [rffStep, stickyStep, ogeB, oleB, zeroRow]

/-! ## C7: turnover and cost accounting -/

theorem length_turnoverList {n : ℕ} (w : List (QRow n)) :
    (turnoverList w).length = w.length := by
  cases w with
  | nil => rfl
  | cons a as =>
    simp only [turnoverList, List.length_cons, List.length_zipWith]
    omega

/-- C7 counterexample: on the concrete session whose mask keeps only the
second bar, the single output row of the backtest has `turnover = 0` (and
`tc = 0`) even though the executed weights of that first bar are `∓1/2` with
absolute sum `1`: pandas' `diff()` makes the first row missing and the
NaN-skipping sum turns it into `0`, not into `Σ|w|` as the claim states. -/
theorem C7_first_bar_turnover_cex :
    vector_backtest cfgSkip [bar0, bar1] = [⟨0, 0, 0, 0⟩] ∧
    (wExecRows cfgSkip [bar0, bar1]).getD 0 (zeroRow 2) 0 = -(1/2) ∧
    (wExecRows cfgSkip [bar0, bar1]).getD 0 (zeroRow 2) 1 = 1/2 ∧
    (∑ s, |(wExecRows cfgSkip [bar0, bar1]).getD 0 (zeroRow 2) s|) = 1 := by
  refine ⟨ev_out_skip, ?_, ?_, ?_⟩ <;> rw [ev_wexec_skip]
  · norm_num
  · norm_num
  · rw [Fin.sum_univ_two]
    norm_num [abs_of_nonneg, abs_of_nonpos]

/-- C7 as amended: the turnover of the FIRST output bar is `0` regardless of
the first executed row (pandas `diff()` leaves it missing and the NaN-skipping
sum yields `0`); for every later bar `t`, turnover is
`Σ_s |w_exec[t,s] - w_exec[t-1,s]|`; and at every bar the transaction cost is
`turnover[t] * cost_bps / 10000`, in return units. -/
theorem C7_turnover_cost_amended {n : ℕ} (w : List (QRow n)) (cost_bps : ℚ) :
    (0 < w.length → (turnoverList w).getD 0 0 = 0) ∧
    (∀ i, i + 1 < w.length →
      (turnoverList w).getD (i + 1) 0 =
        ∑ s, |w.getD (i + 1) (zeroRow n) s - w.getD i (zeroRow n) s|) ∧
    (∀ i, i < w.length →
      (costs_from_turnover w cost_bps).getD i 0 =
        (turnoverList w).getD i 0 * cost_bps / 10000) := by
  refine ⟨?_, ?_, ?_⟩
  · intro h
    cases w with
    | nil => exact absurd h (by simp)
    | cons a as => rfl
  · intro i h
    cases w with
    | nil => exact absurd h (by simp)
    | cons a as =>
      have h2 : i < as.length := by simpa using Nat.lt_of_succ_lt_succ h
      have h1 : i < (a :: as).length := by simp; omega
      show (0 :: List.zipWith _ (a :: as) as).getD (i + 1) 0 = _
      rw [List.getD_cons_succ,
        getD_zipWith _ (a :: as) as i 0 (zeroRow n) (zeroRow n) h1 h2,
        List.getD_cons_succ]
  · intro i h
    have hlen : i < (turnoverList w).length := by
      rw [length_turnoverList]; exact h
    unfold costs_from_turnover
    rw [getD_map _ _ i 0 0 hlen]

/-- Witness for C7's amended statement at a concrete one-name, two-bar
executed-weight path. -/
theorem C7_turnover_cost_amended_witness :
    (0 < ([fun _ => (1/2 : ℚ), fun _ => 1] : List (QRow 1)).length) ∧
    (turnoverList ([fun _ => (1/2 : ℚ), fun _ => 1] : List (QRow 1))).getD 0 0 = 0 ∧
    (turnoverList ([fun _ => (1/2 : ℚ), fun _ => 1] : List (QRow 1))).getD 1 0 =
      ∑ s, |([fun _ => (1/2 : ℚ), fun _ => 1] : List (QRow 1)).getD 1 (zeroRow 1) s -
        ([fun _ => (1/2 : ℚ), fun _ => 1] : List (QRow 1)).getD 0 (zeroRow 1) s| ∧
    (costs_from_turnover ([fun _ => (1/2 : ℚ), fun _ => 1] : List (QRow 1)) 5).getD 1 0 =
      (turnoverList ([fun _ => (1/2 : ℚ), fun _ => 1] : List (QRow 1))).getD 1 0
        * 5 / 10000 :=
  ⟨by norm_num,
    (C7_turnover_cost_amended ([fun _ => (1/2 : ℚ), fun _ => 1] : List (QRow 1)) 5).1
      (by norm_num),
    (C7_turnover_cost_amended ([fun _ => (1/2 : ℚ), fun _ => 1] : List (QRow 1)) 5).2.1
      0 (by norm_num),
    (C7_turnover_cost_amended ([fun _ => (1/2 : ℚ), fun _ => 1] : List (QRow 1)) 5).2.2
      1 (by norm_num)⟩

/-! ## C8: zero-turnover idempotence of the execution policies -/

theorem bandUpd_idem (band_bps : ℚ) {n : ℕ} (p t : QRow n) :
    bandUpd band_bps (bandUpd band_bps p t) t = bandUpd band_bps p t := by
  funext s
  by_cases hc : band_bps / 10000 ≤ |t s - p s|
  · simp [bandUpd, hc, sub_self]
  · simp [bandUpd, hc]

theorem clip_fixed (step max_w x : ℚ) (hs : 0 ≤ step) (hm : 0 ≤ max_w) :
    clip (clip x (-max_w) max_w + clip (x - clip x (-max_w) max_w) (-step) step)
        (-max_w) max_w
      = clip x (-max_w) max_w := by
  simp only [clip, min_def, max_def]
  split_ifs <;> linarith

theorem rlUpd_fix (step_bps max_w : ℚ) (hs : 0 ≤ step_bps) (hm : 0 ≤ max_w)
    {n : ℕ} (t : QRow n) :
    rlUpd step_bps max_w (fun s => clip (t s) (-max_w) max_w) t =
      fun s => clip (t s) (-max_w) max_w := by
  funext s
  exact clip_fixed (step_bps / 10000) max_w (t s) (by positivity) hm

/-- C8 counterexample: with the same target (`1`, one name) at two consecutive
bars, `step_bps = 1000` and `max_w = 1`, the rate-limited executed weight moves
from `1/10` to `1/5` — it changes although the targets are identical, and the
second bar's turnover is `1/10`, not `0`. -/
theorem C8_rate_limit_cex :
    ([fun _ => (1 : ℚ), fun _ => 1] : List (QRow 1)).getD 1 (zeroRow 1) 0 =
      ([fun _ => (1 : ℚ), fun _ => 1] : List (QRow 1)).getD 0 (zeroRow 1) 0 ∧
    (rate_limit_time ([fun _ => (1 : ℚ), fun _ => 1] : List (QRow 1)) 1000 1).getD 0
        (zeroRow 1) 0 = 1/10 ∧
    (rate_limit_time ([fun _ => (1 : ℚ), fun _ => 1] : List (QRow 1)) 1000 1).getD 1
        (zeroRow 1) 0 = 1/5 ∧
    (turnoverList
        (rate_limit_time ([fun _ => (1 : ℚ), fun _ => 1] : List (QRow 1)) 1000 1)).getD
        1 0 = 1/10 := by
  refine ⟨rfl, ?_, ?_, ?_⟩ <;>
    simp only [rate_limit_time, scanSt, turnoverList, List.zipWith_cons_cons,
      List.zipWith_nil_right, List.zipWith_nil_left, List.getD_cons_succ,
      List.getD_cons_zero] <;>
    norm_num [rlUpd, clip, zeroRow, Fin.sum_univ_one]

/-- C8 as amended: if the target row is the same at two consecutive bars, the
band policy's executed weights do not change and contribute zero turnover, for
every band width and prior history; the rate-limit policy has the same
property provided the first of the two bars has already reached the target
clipped to `±max_w` (with `step_bps, max_w ≥ 0`) — otherwise it keeps stepping
toward the target, so the unconditional claim fails for it. -/
theorem C8_zero_turnover_amended {n : ℕ} (wt : List (QRow n))
    (band_bps step_bps max_w : ℚ) (i : ℕ) (h : i + 1 < wt.length)
    (heq : wt.getD (i + 1) (zeroRow n) = wt.getD i (zeroRow n)) :
    ((apply_no_trade_band wt band_bps).getD (i + 1) (zeroRow n) =
        (apply_no_trade_band wt band_bps).getD i (zeroRow n) ∧
      (∑ s, |(apply_no_trade_band wt band_bps).getD (i + 1) (zeroRow n) s -
          (apply_no_trade_band wt band_bps).getD i (zeroRow n) s|) = 0) ∧
    (0 ≤ step_bps → 0 ≤ max_w →
      (rate_limit_time wt step_bps max_w).getD i (zeroRow n) =
        (fun s => clip (wt.getD i (zeroRow n) s) (-max_w) max_w) →
      (rate_limit_time wt step_bps max_w).getD (i + 1) (zeroRow n) =
          (rate_limit_time wt step_bps max_w).getD i (zeroRow n) ∧
        (∑ s, |(rate_limit_time wt step_bps max_w).getD (i + 1) (zeroRow n) s -
            (rate_limit_time wt step_bps max_w).getD i (zeroRow n) s|) = 0) := by
  have hi : i < wt.length := by omega
  constructor
  · have hb1 := scanSt_dup_getD (bandUpd band_bps) (zeroRow n) wt (zeroRow n)
      (zeroRow n) (i + 1) h
    have hb2 := scanSt_dup_getD (bandUpd band_bps) (zeroRow n) wt (zeroRow n)
      (zeroRow n) i hi
    simp only [Nat.succ_ne_zero, if_false, Nat.add_sub_cancel] at hb1
    have heq' : (apply_no_trade_band wt band_bps).getD (i + 1) (zeroRow n) =
        (apply_no_trade_band wt band_bps).getD i (zeroRow n) := by
      show (scanSt (fun s a => (bandUpd band_bps s a, bandUpd band_bps s a))
          (zeroRow n) wt).getD (i + 1) (zeroRow n) = _
      rw [hb1, heq]
      conv_lhs =>
        rw [show (scanSt (fun s a => (bandUpd band_bps s a, bandUpd band_bps s a))
            (zeroRow n) wt).getD i (zeroRow n) =
            (apply_no_trade_band wt band_bps).getD i (zeroRow n) from rfl]
      show bandUpd band_bps ((scanSt (fun s a =>
          (bandUpd band_bps s a, bandUpd band_bps s a)) (zeroRow n) wt).getD i
          (zeroRow n)) (wt.getD i (zeroRow n)) = _
      rw [hb2, bandUpd_idem]
      exact hb2.symm
    refine ⟨heq', ?_⟩
    rw [heq']
    simp
  · intro hs hm hconv
    have hr1 := scanSt_dup_getD (rlUpd step_bps max_w) (zeroRow n) wt (zeroRow n)
      (zeroRow n) (i + 1) h
    simp only [Nat.succ_ne_zero, if_false, Nat.add_sub_cancel] at hr1
    have heq' : (rate_limit_time wt step_bps max_w).getD (i + 1) (zeroRow n) =
        (rate_limit_time wt step_bps max_w).getD i (zeroRow n) := by
      show (scanSt (fun s a => (rlUpd step_bps max_w s a, rlUpd step_bps max_w s a))
          (zeroRow n) wt).getD (i + 1) (zeroRow n) = _
      rw [hr1, heq]
      conv_lhs =>
        rw [show (scanSt (fun s a =>
            (rlUpd step_bps max_w s a, rlUpd step_bps max_w s a)) (zeroRow n)
            wt).getD i (zeroRow n) =
            (rate_limit_time wt step_bps max_w).getD i (zeroRow n) from rfl]
      rw [hconv, rlUpd_fix step_bps max_w hs hm]
    refine ⟨heq', ?_⟩
    rw [heq']
    simp

/-- Witness for C8's amended statement: one name, equal targets `1/2` at both
bars, `step_bps = 10000`, `max_w = 1`; both policies hold their weight and
contribute zero turnover. -/
theorem C8_zero_turnover_amended_witness :
    (0 + 1 < ([fun _ => (1/2 : ℚ), fun _ => 1/2] : List (QRow 1)).length ∧
      ([fun _ => (1/2 : ℚ), fun _ => 1/2] : List (QRow 1)).getD (0 + 1) (zeroRow 1) =
        ([fun _ => (1/2 : ℚ), fun _ => 1/2] : List (QRow 1)).getD 0 (zeroRow 1)) ∧
    ((apply_no_trade_band ([fun _ => (1/2 : ℚ), fun _ => 1/2] : List (QRow 1)) 1).getD
          (0 + 1) (zeroRow 1) =
        (apply_no_trade_band ([fun _ => (1/2 : ℚ), fun _ => 1/2] : List (QRow 1)) 1).getD
          0 (zeroRow 1) ∧
      (∑ s, |(apply_no_trade_band ([fun _ => (1/2 : ℚ), fun _ => 1/2] : List (QRow 1)) 1).getD
            (0 + 1) (zeroRow 1) s -
          (apply_no_trade_band ([fun _ => (1/2 : ℚ), fun _ => 1/2] : List (QRow 1)) 1).getD
            0 (zeroRow 1) s|) = 0) ∧
    ((rate_limit_time ([fun _ => (1/2 : ℚ), fun _ => 1/2] : List (QRow 1)) 10000 1).getD
          (0 + 1) (zeroRow 1) =
        (rate_limit_time ([fun _ => (1/2 : ℚ), fun _ => 1/2] : List (QRow 1)) 10000 1).getD
          0 (zeroRow 1) ∧
      (∑ s, |(rate_limit_time ([fun _ => (1/2 : ℚ), fun _ => 1/2] : List (QRow 1)) 10000 1).getD
            (0 + 1) (zeroRow 1) s -
          (rate_limit_time ([fun _ => (1/2 : ℚ), fun _ => 1/2] : List (QRow 1)) 10000 1).getD
            0 (zeroRow 1) s|) = 0) := by
  have h := C8_zero_turnover_amended
    ([fun _ => (1/2 : ℚ), fun _ => 1/2] : List (QRow 1)) 1 10000 1 0
    (by norm_num) rfl
  refine ⟨⟨by norm_num, rfl⟩, h.1, h.2 (by norm_num) (by norm_num) ?_⟩
  funext s
  norm_num [rate_limit_time, scanSt, List.getD_cons_zero, rlUpd, clip, zeroRow]

/-! ## C9: configuration validation -/

/-- C9 counterexample: with a non-positive horizon (`K = 0`) and a per-name cap
exceeding gross (`max_w = 2 > 1 = gross`), the backtest reports no validation
failure at all: it runs to completion and returns its output table. -/
theorem C9_no_validation_cex :
    vector_backtestE cfgBadK [bar0, bar1] =
      Except.ok (vector_backtest cfgBadK [bar0, bar1]) ∧
    cfgBadK.K = 0 ∧ cfgBadK.gross < cfgBadK.max_w ∧
    cfgBadK.q_in ≤ cfgBadK.q_out := by
  refine ⟨?_, rfl, by norm_num [cfgBadK], by norm_num [cfgBadK]⟩
  unfold vector_backtestE
  rw [if_pos (by norm_num [cfgBadK])]

/-- C9 as amended: the only configuration validation in the backtest is the
`assert q_out >= q_in` inside `sticky_membership` — raised after reshaping and
score computation, not before any computation starts — and it fires exactly
when `q_out < q_in`; non-positive `K` and a cap exceeding gross are not
validated at all. -/
theorem C9_only_q_validated {n : ℕ} (cfg : Cfg) (bars : List (Bar n))
    (h : cfg.q_out < cfg.q_in) :
    vector_backtestE cfg bars = Except.error "q_out must be >= q_in" := by
  unfold vector_backtestE
  rw [if_neg (not_le.mpr h)]

/-- Witness for C9's amended statement at a concrete configuration with
`q_out = 1/4 < 1/2 = q_in`. -/
theorem C9_only_q_validated_witness :
    cfgBadQ.q_out < cfgBadQ.q_in ∧
    vector_backtestE cfgBadQ ([] : List (Bar 2)) =
      Except.error "q_out must be >= q_in" :=
  ⟨by norm_num [cfgBadQ],
    C9_only_q_validated cfgBadQ ([] : List (Bar 2)) (by norm_num [cfgBadQ])⟩

/-! ## C6: gross-return accounting.  Length bookkeeping first. -/

theorem length_wTargetScan (gross max_w : ℚ) {n : ℕ} (l : List (MRow n)) :
    (wTargetScan gross max_w l).length = l.length :=
  length_scanSt _ _ _

theorem length_rate_limit_time {n : ℕ} (l : List (QRow n)) (step_bps max_w : ℚ) :
    (rate_limit_time l step_bps max_w).length = l.length :=
  length_scanSt _ _ _

theorem length_apply_no_trade_band {n : ℕ} (l : List (QRow n)) (band_bps : ℚ) :
    (apply_no_trade_band l band_bps).length = l.length :=
  length_scanSt _ _ _

theorem length_wExecPolicy (cfg : Cfg) {n : ℕ} (l : List (QRow n)) :
    (wExecPolicy cfg l).length = l.length := by
  unfold wExecPolicy
  split_ifs <;>
    simp [length_rate_limit_time, length_apply_no_trade_band, gridRows]

theorem length_wExecRows (cfg : Cfg) {n : ℕ} (bars : List (Bar n)) :
    (wExecRows cfg bars).length = (maskedRows cfg bars).length := by
  unfold wExecRows
  rw [List.length_zipWith, length_wExecPolicy, length_wTargetScan, Nat.min_self]

theorem length_shiftZero {n : ℕ} (l : List (QRow n)) :
    (shiftZero l).length = l.length := by
  cases l with
  | nil => rfl
  | cons a as => simp [shiftZero]

theorem length_rawRetList (cfg : Cfg) {n : ℕ} (bars : List (Bar n)) :
    (rawRetList cfg bars).length = (maskedRows cfg bars).length := by
  unfold rawRetList
  rw [List.length_zipWith, length_shiftZero, length_wExecRows, Nat.min_self]

theorem length_vector_backtest (cfg : Cfg) {n : ℕ} (bars : List (Bar n)) :
    (vector_backtest cfg bars).length = (maskedRows cfg bars).length := by
  unfold vector_backtest costs_from_turnover
  simp only [List.length_zipWith, List.length_zip, List.length_map,
    length_turnoverList, length_rawRetList, length_wExecRows, Nat.min_self]

theorem getD_dropLast {α : Type} (l : List α) (i : ℕ) (d : α)
    (h : i + 1 < l.length) : (l.dropLast).getD i d = l.getD i d := by
  induction l generalizing i with
  | nil => exact absurd h (by simp)
  | cons a as ih =>
    cases as with
    | nil => exact absurd h (by simp)
    | cons b bs =>
      cases i with
      | zero => rfl
      | succ j => exact ih j (Nat.lt_of_succ_lt_succ h)

theorem getD_shiftZero {n : ℕ} (l : List (QRow n)) (i : ℕ) (h : i < l.length) :
    (shiftZero l).getD i (zeroRow n) =
      if i = 0 then zeroRow n else l.getD (i - 1) (zeroRow n) := by
  cases l with
  | nil => exact absurd h (by simp)
  | cons a as =>
    cases i with
    | zero => rfl
    | succ j =>
      simp only [shiftZero, List.getD_cons_succ, Nat.succ_ne_zero, if_false,
        Nat.add_sub_cancel]
      exact getD_dropLast (a :: as) j (zeroRow n) h

/-- Row `i` of the output table, decomposed into its four component series. -/
theorem vector_backtest_getD (cfg : Cfg) {n : ℕ} (bars : List (Bar n)) (i : ℕ)
    (h : i < (maskedRows cfg bars).length) :
    (vector_backtest cfg bars).getD i out0 =
      ⟨(rawRetList cfg bars).getD i 0,
       (costs_from_turnover (wExecRows cfg bars) cfg.cost_bps).getD i 0,
       (rawRetList cfg bars).getD i 0 -
         (costs_from_turnover (wExecRows cfg bars) cfg.cost_bps).getD i 0,
       (turnoverList (wExecRows cfg bars)).getD i 0⟩ := by
  have hraw : i < (rawRetList cfg bars).length := by
    rw [length_rawRetList]; exact h
  have htc : i < (costs_from_turnover (wExecRows cfg bars) cfg.cost_bps).length := by
    unfold costs_from_turnover
    rw [List.length_map, length_turnoverList, length_wExecRows]; exact h
  have hto : i < (turnoverList (wExecRows cfg bars)).length := by
    rw [length_turnoverList, length_wExecRows]; exact h
  have hzip : i < ((rawRetList cfg bars).zip
      (costs_from_turnover (wExecRows cfg bars) cfg.cost_bps)).length := by
    rw [List.length_zip]; exact lt_min hraw htc
  unfold vector_backtest
  rw [getD_zipWith _ _ _ i out0 (0, 0) 0 hzip hto, List.zip_eq_zipWith,
    getD_zipWith _ _ _ i (0, 0) 0 0 hraw htc]

/-- C6: gross-return accounting.  At every output bar `i` whose open and close
cells are all present with non-zero opens, `raw_ret` equals the sum over
symbols of the PREVIOUS bar's executed weight times that bar's open-to-close
return `close/open - 1` (all-zero executed weight before the first bar); and at
every output bar, `net_ret = raw_ret - tc`. -/
theorem C6_return_accounting (cfg : Cfg) {n : ℕ} (bars : List (Bar n)) (i : ℕ)
    (h : i < (maskedRows cfg bars).length) (op cl : QRow n)
    (hop : ∀ s, ((maskedRows cfg bars).getD i (mrow0 n)).bar.op s = some (op s))
    (hcl : ∀ s, ((maskedRows cfg bars).getD i (mrow0 n)).bar.cl s = some (cl s))
    (hnz : ∀ s, op s ≠ 0) :
    ((vector_backtest cfg bars).getD i out0).raw_ret =
      ∑ s, (if i = 0 then zeroRow n
            else (wExecRows cfg bars).getD (i - 1) (zeroRow n)) s *
        (cl s / op s - 1) ∧
    (∀ j, j < (vector_backtest cfg bars).length →
      ((vector_backtest cfg bars).getD j out0).net_ret =
        ((vector_backtest cfg bars).getD j out0).raw_ret -
        ((vector_backtest cfg bars).getD j out0).tc) := by
  constructor
  · rw [vector_backtest_getD cfg bars i h]
    have hwe : i < (wExecRows cfg bars).length := by
      rw [length_wExecRows]; exact h
    have hsz : i < (shiftZero (wExecRows cfg bars)).length := by
      rw [length_shiftZero]; exact hwe
    have hrr : (rawRetList cfg bars).getD i 0 =
        ∑ s, (shiftZero (wExecRows cfg bars)).getD i (zeroRow n) s *
          ((ocRow ((maskedRows cfg bars).getD i (mrow0 n)).bar) s).getD 0 := by
      unfold rawRetList
      exact getD_zipWith _ _ _ i 0 (mrow0 n) (zeroRow n) h hsz
    dsimp only
    rw [hrr, getD_shiftZero _ i hwe]
    refine Finset.sum_congr rfl fun s _ => ?_
    have hoc : ocRow ((maskedRows cfg bars).getD i (mrow0 n)).bar s =
        some (cl s / op s - 1) := by
      unfold ocRow
      rw [hcl s, hop s]
      dsimp only
      rw [if_neg (hnz s)]
    rw [hoc, Option.getD_some]
  · intro j hj
    rw [length_vector_backtest] at hj
    rw [vector_backtest_getD cfg bars j hj]

/-- Witness for C6 at the concrete session: the first output bar's gross
return is the all-zero lagged weight row times the open-to-close returns. -/
theorem C6_return_accounting_witness :
    ((vector_backtest cfgSkip [bar0, bar1]).getD 0 out0).raw_ret =
      ∑ s, (if 0 = 0 then zeroRow 2
            else (wExecRows cfgSkip [bar0, bar1]).getD (0 - 1) (zeroRow 2)) s *
        ((fun t : Fin 2 => if t = 0 then (11 : ℚ) else 9) s /
          (fun _ : Fin 2 => (10 : ℚ)) s - 1) :=
  (C6_return_accounting cfgSkip [bar0, bar1] 0
    (by rw [ev_masked_skip]; norm_num)
    (fun _ => 10) (fun t => if t = 0 then 11 else 9)
    (by intro s; rw [ev_masked_skip]; rfl)
    (by intro s; rw [ev_masked_skip]; by_cases hz : s = 0 <;> simp [bar1, hz])
    (by intro s; norm_num)).1

/-! ## C3: zero-membership rows produce all-zero target-weight rows -/

theorem absSum_eq_zero {n : ℕ} (row : QRow n) :
    absSum row = 0 ↔ ∀ s, row s = 0 := by
  unfold absSum
  rw [Finset.sum_eq_zero_iff_of_nonneg fun s _ => abs_nonneg (row s)]
  simp [abs_eq_zero]

theorem rffWf_step {n : ℕ} (last : ORow n) (row : QRow n) (h : rffWf last) :
    rffWf (rffStep last row).1 := by
  intro s v hv
  simp only [rffStep] at hv
  by_cases hr : row s ≠ 0
  · rw [if_pos hr] at hv
    cases hv
    exact hr
  · rw [if_neg hr] at hv
    exact h s v hv

theorem rffStep_out_zero {n : ℕ} (last : ORow n) (row : QRow n) (h : rffWf last)
    (s : Fin n) : (rffStep last row).2 s = 0 ↔ (rffStep last row).1 s = none := by
  constructor
  · intro hz
    cases hst : (rffStep last row).1 s with
    | none => rfl
    | some v =>
      have hv := rffWf_step last row h s v hst
      have : (rffStep last row).2 s = v := by
        show ((rffStep last row).1 s).getD 0 = v
        rw [hst]; rfl
      rw [this] at hz
      exact absurd hz hv
  · intro hn
    show ((rffStep last row).1 s).getD 0 = 0
    rw [hn]; rfl

theorem rffStep_state_none {n : ℕ} (last : ORow n) (row : QRow n) (s : Fin n)
    (h : (rffStep last row).1 s = none) : last s = none := by
  simp only [rffStep] at h
  by_cases hr : row s ≠ 0
  · rw [if_pos hr] at h; cases h
  · rwa [if_neg hr] at h

/-- The rows of `replace(0,NaN).ffill().fillna(0)` form a chain in which a zero
cell forces the same cell of the previous row to be zero: per column, once a
non-zero value has appeared, zero never appears again in the OUTPUT. -/
theorem chain_replaceFfill {n : ℕ} (l : List (QRow n)) (last : ORow n)
    (h : rffWf last) :
    List.Chain' (fun a b : QRow n => ∀ s, b s = 0 → a s = 0)
      (scanSt rffStep last l) := by
  induction l generalizing last with
  | nil => simp [scanSt]
  | cons a rest ih =>
    simp only [scanSt]
    rw [List.chain'_cons']
    refine ⟨?_, ih _ (rffWf_step last a h)⟩
    intro b hb s hbs
    cases rest with
    | nil => simp [scanSt] at hb
    | cons r' rest' =>
      simp only [scanSt, List.head?_cons, Option.mem_def, Option.some.injEq] at hb
      subst hb
      have h1 : (rffStep (rffStep last a).1 r').1 s = none :=
        (rffStep_out_zero _ r' (rffWf_step last a h) s).mp hbs
      have h2 : (rffStep last a).1 s = none := rffStep_state_none _ _ s h1
      show ((rffStep last a).1 s).getD 0 = 0
      rw [h2]; rfl

/-- Downward propagation of zero cells along such a chain. -/
theorem chain_cell_down {n : ℕ} (M : List (QRow n))
    (hc : List.Chain' (fun a b : QRow n => ∀ s, b s = 0 → a s = 0) M) :
    ∀ i, i < M.length → ∀ j, j ≤ i → ∀ s,
      M.getD i (zeroRow n) s = 0 → M.getD j (zeroRow n) s = 0 := by
  intro i
  induction i with
  | zero =>
    intro _ j hj s hz
    rw [Nat.le_zero.mp hj]
    exact hz
  | succ k ih =>
    intro hi j hj s hz
    rcases Nat.lt_or_ge j (k + 1) with hlt | hge
    · have hk : k < M.length := by omega
      have hadj := List.chain'_iff_get.mp hc k (by omega)
      have hgetk : M.getD k (zeroRow n) s = 0 := by
        have h1 : M.getD (k + 1) (zeroRow n) = M.get ⟨k + 1, hi⟩ :=
          List.getD_eq_getElem M (zeroRow n) hi
        have h2 : M.getD k (zeroRow n) = M.get ⟨k, hk⟩ :=
          List.getD_eq_getElem M (zeroRow n) hk
        rw [h2]
        rw [h1] at hz
        exact hadj s hz
      exact ih hk j (by omega) s hgetk
    · have : j = k + 1 := by omega
      rw [this]
      exact hz

theorem length_stickyScan {n : ℕ} (q_in q_out : ℚ) (l : List (ORow n × Bool)) :
    (stickyScan q_in q_out l).length = l.length :=
  length_scanSt _ _ _

theorem length_replaceFfill {n : ℕ} (l : List (QRow n)) :
    (replaceFfill l).length = l.length :=
  length_scanSt _ _ _

theorem length_diffK {n : ℕ} (K : ℕ) (l : List (ORow n)) :
    (diffK K l).length = l.length := by
  unfold diffK
  rw [List.length_zipWith, List.length_append, List.length_replicate]
  omega

theorem length_scoreRows (mode : String) (K : ℕ) {n : ℕ} (bars : List (Bar n)) :
    (scoreRows mode K bars).length = bars.length := by
  unfold scoreRows
  split_ifs
  · rw [List.length_map, length_diffK, List.length_map]
  · rw [length_diffK, List.length_map]

theorem length_updFlags (reb : ℕ) {n : ℕ} (bars : List (Bar n)) :
    (updFlags reb bars).length = bars.length :=
  length_scanSt _ _ _

theorem length_membFull (cfg : Cfg) {n : ℕ} (bars : List (Bar n)) :
    (membFull cfg bars).length = bars.length := by
  unfold membFull sticky_membership
  rw [length_replaceFfill, length_stickyScan, List.length_zip, List.length_map,
    length_scoreRows, length_updFlags, Nat.min_self]

theorem map_memb_zipWith {n : ℕ} :
    ∀ (bars : List (Bar n)) (ms : List (QRow n)) (us : List Bool),
      bars.length = ms.length → ms.length = us.length →
      (List.zipWith (fun b (mu : QRow n × Bool) => MRow.mk b mu.1 mu.2) bars
          (ms.zip us)).map (fun mr => mr.memb) = ms := by
  intro bars
  induction bars with
  | nil =>
    intro ms us h1 _
    cases ms with
    | nil => rfl
    | cons m msr => simp at h1
  | cons b bs ih =>
    intro ms us h1 h2
    cases ms with
    | nil => simp at h1
    | cons m msr =>
      cases us with
      | nil => simp at h2
      | cons u usr =>
        simp only [List.zip_cons_cons, List.zipWith_cons_cons, List.map_cons,
          List.cons.injEq, true_and]
        exact ih msr usr (by simpa using h1) (by simpa using h2)

theorem masked_memb_sublist (cfg : Cfg) {n : ℕ} (bars : List (Bar n)) :
    ((maskedRows cfg bars).map (fun mr => mr.memb)).Sublist (membFull cfg bars) := by
  unfold maskedRows
  have hsub :=
    (List.filter_sublist (l := List.zipWith
        (fun b (mu : QRow n × Bool) => MRow.mk b mu.1 mu.2) bars
        ((membFull cfg bars).zip (updFlags cfg.rebalance_every_n_bars bars)))
      (p := fun mr => sessionOK cfg mr.bar)).map (fun mr : MRow n => mr.memb)
  rwa [map_memb_zipWith bars (membFull cfg bars)
      (updFlags cfg.rebalance_every_n_bars bars) (length_membFull cfg bars).symm
      (by rw [length_membFull, length_updFlags])] at hsub

theorem chain_masked_memb (cfg : Cfg) {n : ℕ} (bars : List (Bar n)) :
    List.Chain' (fun a b : QRow n => ∀ s, b s = 0 → a s = 0)
      ((maskedRows cfg bars).map (fun mr => mr.memb)) := by
  letI : IsTrans (QRow n) (fun a b : QRow n => ∀ s, b s = 0 → a s = 0) :=
    ⟨fun a b c hab hbc s hcs => hab s (hbc s hcs)⟩
  have hchain : List.Chain' (fun a b : QRow n => ∀ s, b s = 0 → a s = 0)
      (membFull cfg bars) := by
    unfold membFull sticky_membership replaceFfill
    exact chain_replaceFfill _ _ (fun s v h => by cases h)
  exact hchain.sublist (masked_memb_sublist cfg bars)

/-- Through the whole scan, a prefix of all-zero-membership rows keeps the
forward-fill state empty and produces all-zero target-weight rows. -/
theorem wtScan_zero {n : ℕ} (gross max_w : ℚ) (hm : 0 ≤ max_w) :
    ∀ (l : List (MRow n)) (i : ℕ), i < l.length →
      (∀ j, j ≤ i → absSum ((l.getD j (mrow0 n)).memb) = 0) →
      (scanSt (wtStep gross max_w) (noneRow n) l).getD i (zeroRow n) = zeroRow n := by
  intro l
  induction l with
  | nil => intro i hi; exact absurd hi (by simp)
  | cons a rest ih =>
    intro i hi hz
    have hz0 : absSum a.memb = 0 := by simpa using hz 0 (Nat.zero_le i)
    have hstate : (wtStep gross max_w (noneRow n) a).1 = noneRow n := by
      funext s
      simp only [wtStep, hz0, if_pos rfl]
      by_cases hu : a.upd <;> simp [hu, noneRow]
    have hout : (wtStep gross max_w (noneRow n) a).2 = zeroRow n := by
      funext s
      show clip (((wtStep gross max_w (noneRow n) a).1 s).getD 0) (-max_w) max_w
        = zeroRow n s
      rw [hstate]
      show clip 0 (-max_w) max_w = 0
      unfold clip
      rw [max_eq_left (neg_nonpos.mpr hm), min_eq_left hm]
    cases i with
    | zero => simp [scanSt, hout]
    | succ k =>
      simp only [scanSt, List.getD_cons_succ]
      rw [hstate]
      refine ih k (Nat.lt_of_succ_lt_succ hi) fun j hj => ?_
      simpa using hz (j + 1) (Nat.succ_le_succ hj)

/-- C3: for every row of the session-masked membership matrix whose absolute
sum is zero, the target-weight row the backtest produces is exactly all-zero —
no NaN and nothing inherited from an earlier row (the structure of
`sticky_membership`'s output guarantees every earlier row is also all-zero, so
the forward-fill has nothing non-zero to propagate) — for every positive gross
and per-name cap.  Conjoined: `size_positions` of `src/portfolio.py` maps any
row with zero absolute sum (NaN-skipping) to the all-zero row, for every gross
and cap. -/
theorem C3_zero_row_zero_weights (cfg : Cfg) {n : ℕ} (bars : List (Bar n))
    (_hg : 0 < cfg.gross) (hw : 0 < cfg.max_w) (i : ℕ)
    (hi : i < (maskedRows cfg bars).length)
    (hz : absSum ((maskedRows cfg bars).getD i (mrow0 n)).memb = 0) :
    (wTargetScan cfg.gross cfg.max_w (maskedRows cfg bars)).getD i (zeroRow n)
      = zeroRow n ∧
    (∀ (m : ℕ) (raw : List (ORow m)) (gross2 max_w2 : ℚ) (j : ℕ),
      j < raw.length →
      (∑ s, |((raw.getD j (noneRow m)) s).getD 0|) = 0 →
      (size_positions raw gross2 max_w2).getD j (zeroRow m) = zeroRow m) := by
  constructor
  · have hmm : i < ((maskedRows cfg bars).map (fun mr => mr.memb)).length := by
      rw [List.length_map]; exact hi
    have hcell : ∀ s,
        ((maskedRows cfg bars).map (fun mr => mr.memb)).getD i (zeroRow n) s = 0 := by
      intro s
      rw [getD_map (fun mr : MRow n => mr.memb) _ i (zeroRow n) (mrow0 n) hi]
      exact (absSum_eq_zero _).mp hz s
    have hall : ∀ j, j ≤ i →
        absSum ((maskedRows cfg bars).getD j (mrow0 n)).memb = 0 := by
      intro j hj
      have hjlen : j < (maskedRows cfg bars).length := lt_of_le_of_lt hj hi
      refine (absSum_eq_zero _).mpr fun s => ?_
      have := chain_cell_down _ (chain_masked_memb cfg bars) i hmm j hj s (hcell s)
      rwa [getD_map (fun mr : MRow n => mr.memb) _ j (zeroRow n) (mrow0 n) hjlen]
        at this
    exact wtScan_zero cfg.gross cfg.max_w (le_of_lt hw) (maskedRows cfg bars)
      i hi hall
  · intro m raw gross2 max_w2 j hj hsum
    unfold size_positions
    rw [getD_map _ _ j (zeroRow m) (noneRow m) hj]
    dsimp only
    rw [hsum]
    funext s
    cases hrow : (raw.getD j (noneRow m)) s with
    | none => simp [zeroRow]
    | some v => simp [hrow, zeroRow]

theorem ev_sess0m : sessionOK cfgMom bar0 = true := by
  norm_num [sessionOK, cfgMom, bar0]

theorem ev_sess1m : sessionOK cfgMom bar1 = true := by
  norm_num [sessionOK, cfgMom, bar1]

theorem ev_masked_mom :
    maskedRows cfgMom [bar0, bar1] =
      [⟨bar0, zeroRow 2, true⟩, ⟨bar1, fun s => if s = 0 then -1 else 1, true⟩] := by
  simp only [maskedRows]
  have hreb : cfgMom.rebalance_every_n_bars = 1 := rfl
  rw [ev_memb_mom, hreb, ev_upd]
  simp only [List.zip_cons_cons, List.zip_nil_right, List.zipWith_cons_cons,
    List.zipWith_nil_right, List.filter]
  rw [ev_sess0m, ev_sess1m]

/-- Witness for C3: the first masked row of the momentum run is all-flat and
gets the all-zero target row; a one-name all-missing row through
`size_positions` likewise yields the all-zero row. -/
theorem C3_zero_row_zero_weights_witness :
    (wTargetScan cfgMom.gross cfgMom.max_w (maskedRows cfgMom [bar0, bar1])).getD 0
        (zeroRow 2) = zeroRow 2 ∧
    (size_positions [noneRow 1] 2 (1/2)).getD 0 (zeroRow 1) = zeroRow 1 :=
  ⟨(C3_zero_row_zero_weights cfgMom [bar0, bar1] (by norm_num [cfgMom])
      (by norm_num [cfgMom]) 0 (by rw [ev_masked_mom]; norm_num)
      (by rw [ev_masked_mom]
          norm_num [absSum, zeroRow, Fin.sum_univ_two])).1,
    (C3_zero_row_zero_weights cfgMom [bar0, bar1] (by norm_num [cfgMom])
      (by norm_num [cfgMom]) 0 (by rw [ev_masked_mom]; norm_num)
      (by rw [ev_masked_mom]
          norm_num [absSum, zeroRow, Fin.sum_univ_two])).2
      1 [noneRow 1] 2 (1/2) 0 (by norm_num)
      (by simp [noneRow])⟩

/-! ## C4: causality.  Every stage only reads the prefix of its input, so the
whole pipeline restricted to the first `pre.length` bars is a function of
`pre` alone, whatever comes after. -/

theorem scanSt_take_eq {σ α β : Type} (f : σ → α → σ × β) (s : σ) (x : List α)
    (m : ℕ) (xp : List α) (hx : x.take m = xp) (hm : m ≤ x.length) :
    (scanSt f s x).take m = scanSt f s xp := by
  subst hx
  have h1 := scanSt_take f s (x.take m) (x.drop m)
  rw [List.take_append_drop] at h1
  rwa [List.length_take, min_eq_left hm] at h1

theorem zipWith_congr_front {α β γ : Type} (f : α → β → γ) :
    ∀ (l' : List β) (l1 l2 : List α), l1.take l'.length = l2.take l'.length →
      List.zipWith f l1 l' = List.zipWith f l2 l' := by
  intro l'
  induction l' with
  | nil => intro l1 l2 _; simp
  | cons b bs ih =>
    intro l1 l2 h
    cases l1 with
    | nil =>
      cases l2 with
      | nil => rfl
      | cons c cs => simp at h
    | cons a as =>
      cases l2 with
      | nil => simp at h
      | cons c cs =>
        simp only [List.length_cons, List.take_succ_cons, List.cons.injEq] at h
        rw [List.zipWith_cons_cons, List.zipWith_cons_cons, h.1, ih as cs h.2]

theorem zipWith_take_right {α β γ : Type} (f : α → β → γ) :
    ∀ (l : List α) (l' : List β),
      List.zipWith f l (l'.take l.length) = List.zipWith f l l' := by
  intro l
  induction l with
  | nil => intro l'; simp
  | cons a as ih =>
    intro l'
    cases l' with
    | nil => simp
    | cons b bs =>
      simp only [List.length_cons, List.take_succ_cons, List.zipWith_cons_cons]
      rw [ih bs]

theorem take_cons_take {α : Type} (a : α) (as : List α) (j : ℕ) :
    (a :: as.take j).take j = (a :: as).take j := by
  cases j with
  | zero => rfl
  | succ u =>
    rw [List.take_succ_cons, List.take_succ_cons, List.take_take,
      min_eq_left (Nat.le_succ u)]

theorem diffK_take {n : ℕ} (K : ℕ) (a b : List (ORow n)) :
    (diffK K (a ++ b)).take a.length = diffK K a := by
  unfold diffK
  rw [List.take_zipWith, List.take_left]
  have h1 : ((List.replicate K (noneRow n) ++ (a ++ b))).take a.length =
      (List.replicate K (noneRow n) ++ a).take a.length := by
    rw [← List.append_assoc]
    refine List.take_append_of_le_length ?_
    simp only [List.length_append, List.length_replicate]
    omega
  rw [h1]
  exact zipWith_take_right oSubRow a (List.replicate K (noneRow n) ++ a)

theorem scoreRows_take (mode : String) (K : ℕ) {n : ℕ} (pre suf : List (Bar n)) :
    (scoreRows mode K (pre ++ suf)).take pre.length = scoreRows mode K pre := by
  unfold scoreRows
  have hd : (diffK K ((pre ++ suf).map (fun b => b.lcl))).take pre.length =
      diffK K (pre.map (fun b => b.lcl)) := by
    rw [List.map_append]
    have := diffK_take K (pre.map (fun b => b.lcl)) (suf.map (fun b => b.lcl))
    rwa [List.length_map] at this
  split_ifs
  · rw [← List.map_take, hd]
  · exact hd

theorem updFlags_take (reb : ℕ) {n : ℕ} (pre suf : List (Bar n)) :
    (updFlags reb (pre ++ suf)).take pre.length = updFlags reb pre :=
  scanSt_take _ _ _ _

theorem membFull_take (cfg : Cfg) {n : ℕ} (pre suf : List (Bar n)) :
    (membFull cfg (pre ++ suf)).take pre.length = membFull cfg pre := by
  unfold membFull sticky_membership replaceFfill
  have hrank : ((scoreRows cfg.signal_mode cfg.K (pre ++ suf)).map rankRow).take
      pre.length = (scoreRows cfg.signal_mode cfg.K pre).map rankRow := by
    rw [← List.map_take, scoreRows_take]
  have hzip : (((scoreRows cfg.signal_mode cfg.K (pre ++ suf)).map rankRow).zip
        (updFlags cfg.rebalance_every_n_bars (pre ++ suf))).take pre.length =
      ((scoreRows cfg.signal_mode cfg.K pre).map rankRow).zip
        (updFlags cfg.rebalance_every_n_bars pre) := by
    rw [List.zip_eq_zipWith, List.take_zipWith, hrank,
      updFlags_take cfg.rebalance_every_n_bars pre suf, ← List.zip_eq_zipWith]
  have hziplen : pre.length ≤
      (((scoreRows cfg.signal_mode cfg.K (pre ++ suf)).map rankRow).zip
        (updFlags cfg.rebalance_every_n_bars (pre ++ suf))).length := by
    rw [List.length_zip, List.length_map, length_scoreRows, length_updFlags]
    simp
  have hsticky : (stickyScan cfg.q_in cfg.q_out
        (((scoreRows cfg.signal_mode cfg.K (pre ++ suf)).map rankRow).zip
          (updFlags cfg.rebalance_every_n_bars (pre ++ suf)))).take pre.length =
      stickyScan cfg.q_in cfg.q_out
        (((scoreRows cfg.signal_mode cfg.K pre).map rankRow).zip
          (updFlags cfg.rebalance_every_n_bars pre)) :=
    scanSt_take_eq _ _ _ _ _ hzip hziplen
  refine scanSt_take_eq _ _ _ _ _ hsticky ?_
  rw [length_stickyScan, List.length_zip, List.length_map, length_scoreRows,
    length_updFlags]
  simp

theorem maskedRows_take (cfg : Cfg) {n : ℕ} (pre suf : List (Bar n)) :
    (maskedRows cfg (pre ++ suf)).take (maskedRows cfg pre).length =
      maskedRows cfg pre := by
  unfold maskedRows
  have hZ : (List.zipWith (fun b (mu : QRow n × Bool) => MRow.mk b mu.1 mu.2)
        (pre ++ suf) ((membFull cfg (pre ++ suf)).zip
          (updFlags cfg.rebalance_every_n_bars (pre ++ suf)))).take pre.length =
      List.zipWith (fun b (mu : QRow n × Bool) => MRow.mk b mu.1 mu.2) pre
        ((membFull cfg pre).zip (updFlags cfg.rebalance_every_n_bars pre)) := by
    rw [List.take_zipWith, List.take_left, List.zip_eq_zipWith, List.take_zipWith,
      membFull_take, updFlags_take, ← List.zip_eq_zipWith]
  conv_lhs =>
    rw [← List.take_append_drop pre.length
      (List.zipWith (fun b (mu : QRow n × Bool) => MRow.mk b mu.1 mu.2)
        (pre ++ suf) ((membFull cfg (pre ++ suf)).zip
          (updFlags cfg.rebalance_every_n_bars (pre ++ suf)))),
      hZ]
  rw [List.filter_append]
  exact List.take_left' rfl

theorem maskedRows_take_le (cfg : Cfg) {n : ℕ} (pre suf : List (Bar n)) :
    (maskedRows cfg pre).length ≤ (maskedRows cfg (pre ++ suf)).length := by
  have h := congrArg List.length (maskedRows_take cfg pre suf)
  rw [List.length_take] at h
  omega

theorem wTargetScan_take (gross max_w : ℚ) {n : ℕ} (x : List (MRow n)) (m : ℕ)
    (xp : List (MRow n)) (hx : x.take m = xp) (hm : m ≤ x.length) :
    (wTargetScan gross max_w x).take m = wTargetScan gross max_w xp :=
  scanSt_take_eq _ _ _ _ _ hx hm

theorem rate_limit_time_take {n : ℕ} (x : List (QRow n)) (step_bps max_w : ℚ)
    (m : ℕ) (xp : List (QRow n)) (hx : x.take m = xp) (hm : m ≤ x.length) :
    (rate_limit_time x step_bps max_w).take m = rate_limit_time xp step_bps max_w :=
  scanSt_take_eq _ _ _ _ _ hx hm

theorem apply_no_trade_band_take {n : ℕ} (x : List (QRow n)) (band_bps : ℚ)
    (m : ℕ) (xp : List (QRow n)) (hx : x.take m = xp) (hm : m ≤ x.length) :
    (apply_no_trade_band x band_bps).take m = apply_no_trade_band xp band_bps :=
  scanSt_take_eq _ _ _ _ _ hx hm

theorem wExecPolicy_take (cfg : Cfg) {n : ℕ} (x : List (QRow n)) (m : ℕ)
    (xp : List (QRow n)) (hx : x.take m = xp) (hm : m ≤ x.length) :
    (wExecPolicy cfg x).take m = wExecPolicy cfg xp := by
  unfold wExecPolicy
  split_ifs with h1 h2 h3 h4
  · exact rate_limit_time_take _ _ _ _ _
      (apply_no_trade_band_take _ _ _ _ hx hm)
      (by rw [length_apply_no_trade_band]; exact hm)
  · exact rate_limit_time_take _ _ _ _ _ hx hm
  · exact apply_no_trade_band_take _ _ _ _ hx hm
  · unfold gridRows
    rw [← List.map_take, hx]
  · exact hx

theorem wExecRows_take (cfg : Cfg) {n : ℕ} (pre suf : List (Bar n)) :
    (wExecRows cfg (pre ++ suf)).take (maskedRows cfg pre).length =
      wExecRows cfg pre := by
  unfold wExecRows
  rw [List.take_zipWith, maskedRows_take]
  have hwt : (wTargetScan cfg.gross cfg.max_w (maskedRows cfg (pre ++ suf))).take
      (maskedRows cfg pre).length =
      wTargetScan cfg.gross cfg.max_w (maskedRows cfg pre) :=
    wTargetScan_take _ _ _ _ _ (maskedRows_take cfg pre suf)
      (maskedRows_take_le cfg pre suf)
  rw [wExecPolicy_take cfg _ _ _ hwt
    (by rw [length_wTargetScan]; exact maskedRows_take_le cfg pre suf)]

theorem shiftZero_take {n : ℕ} :
    ∀ (x : List (QRow n)) (m : ℕ), m ≤ x.length →
      (shiftZero x).take m = shiftZero (x.take m) := by
  intro x m hm
  cases x with
  | nil => simp [shiftZero]
  | cons a as =>
    cases m with
    | zero => rfl
    | succ j =>
      have hj : j ≤ as.length := by simpa using hm
      show ((fun _ => 0) :: (a :: as).dropLast).take (j + 1) =
        shiftZero ((a :: as).take (j + 1))
      rw [List.take_succ_cons, List.take_succ_cons]
      show (fun _ => 0) :: ((a :: as).dropLast).take j =
        (fun _ => 0) :: (a :: as.take j).dropLast
      refine congrArg _ ?_
      rw [List.dropLast_eq_take, List.dropLast_eq_take]
      simp only [List.length_cons, Nat.add_sub_cancel, List.take_take,
        List.length_take]
      rw [min_eq_left hj]
      exact (take_cons_take a as j).symm

theorem turnoverList_take {n : ℕ} (x : List (QRow n)) (m : ℕ) (hm : m ≤ x.length) :
    (turnoverList x).take m = turnoverList (x.take m) := by
  cases x with
  | nil => simp [turnoverList]
  | cons a as =>
    cases m with
    | zero => rfl
    | succ j =>
      have hj : j ≤ as.length := by simpa using hm
      show (0 :: List.zipWith _ (a :: as) as).take (j + 1) =
        turnoverList ((a :: as).take (j + 1))
      rw [List.take_succ_cons, List.take_succ_cons]
      show 0 :: (List.zipWith _ (a :: as) as).take j =
        turnoverList (a :: as.take j)
      unfold turnoverList
      rw [List.take_zipWith]
      refine congrArg _ (zipWith_congr_front _ (as.take j) _ _ ?_)
      rw [List.length_take, min_eq_left hj, List.take_take, min_self,
        take_cons_take]

theorem rawRetList_take (cfg : Cfg) {n : ℕ} (pre suf : List (Bar n)) :
    (rawRetList cfg (pre ++ suf)).take (maskedRows cfg pre).length =
      rawRetList cfg pre := by
  unfold rawRetList
  rw [List.take_zipWith, maskedRows_take,
    shiftZero_take _ _ (by rw [length_wExecRows]; exact maskedRows_take_le cfg pre suf),
    wExecRows_take]

theorem costs_from_turnover_take {n : ℕ} (x : List (QRow n)) (cost_bps : ℚ)
    (m : ℕ) (hm : m ≤ x.length) :
    (costs_from_turnover x cost_bps).take m = costs_from_turnover (x.take m) cost_bps := by
  unfold costs_from_turnover
  rw [← List.map_take, turnoverList_take _ _ hm]

/-- C4 (causality, two-run statement in prefix form): the rows of the wide
matrices are in strictly increasing timestamp order, so adding, removing or
perturbing any bar with timestamp strictly after the cutoff `t` replaces only
the suffix `suf` after the `pre.length` bars at or before `t`.  Every backtest
output at or before `t` — the score matrix, the full-index membership matrix,
the session-masked rows, the executed weights, and the output rows
(raw_ret/tc/net_ret/turnover) — equals the output computed from `pre` alone,
hence coincides between any two runs that share `pre`. -/
theorem C4_causality (cfg : Cfg) {n : ℕ} (pre suf : List (Bar n)) :
    (scoreRows cfg.signal_mode cfg.K (pre ++ suf)).take pre.length =
      scoreRows cfg.signal_mode cfg.K pre ∧
    (membFull cfg (pre ++ suf)).take pre.length = membFull cfg pre ∧
    (maskedRows cfg (pre ++ suf)).take (maskedRows cfg pre).length =
      maskedRows cfg pre ∧
    (wExecRows cfg (pre ++ suf)).take (maskedRows cfg pre).length =
      wExecRows cfg pre ∧
    (vector_backtest cfg (pre ++ suf)).take (maskedRows cfg pre).length =
      vector_backtest cfg pre := by
  refine ⟨scoreRows_take _ _ pre suf, membFull_take cfg pre suf,
    maskedRows_take cfg pre suf, wExecRows_take cfg pre suf, ?_⟩
  unfold vector_backtest
  have hwe : (maskedRows cfg pre).length ≤ (wExecRows cfg (pre ++ suf)).length := by
    rw [length_wExecRows]; exact maskedRows_take_le cfg pre suf
  rw [List.take_zipWith, List.zip_eq_zipWith, List.take_zipWith,
    rawRetList_take cfg pre suf, costs_from_turnover_take _ _ _ hwe,
    turnoverList_take _ _ hwe, wExecRows_take, ← List.zip_eq_zipWith]

end IMR
